import Mathlib

/-!
Shallow embedding of the playback scheduling core of `playlist_player.py`:
the fairness queue (`RandomPlayer._fill_queue`, `RandomPlayer._play_next_from_queue`),
the play-count ledger (`RandomPlayer._track_key`, `RandomPlayer.play_track`),
the autoplay-timer bookkeeping (`RandomPlayer._start_autoplay_timer`,
`RandomPlayer.pause_playback`), the catalog reconciliation of
`RandomPlayer.load_playlists` with the silent fetch fallbacks, and the queue
reordering done by the drag-release handler of the `Menu` window.

Python floats are modelled as rationals, the play-count dictionary as a function
`String → Nat` with pointwise update, `random.shuffle` as an arbitrary function
that theorems hypothesise to permute its argument, and external effects (browser
automation, keypresses, persistence, printing) are dropped: only the state the
scheduling logic reads and writes is retained.
-/

/-- The `Track` dataclass. -/
structure Track where
  title : String
  artist : String
  platform : String
  url : String
  uri : Option String := none
  duration : Option ℚ := none
  addedById : Option String := none
  addedByName : Option String := none
  addedAt : Option String := none
  deriving DecidableEq, Repr, Inhabited

/-- The mutable state of `RandomPlayer` read and written by the scheduling core
(the `__init__` fields used by it; the live `threading.Timer` object is modelled
by the duration it was armed with, `none` meaning no live timer). -/
structure PlayerState where
  youtubeTracks : List Track
  spotifyTracks : List Track
  allTracks : List Track
  playedTracks : List Track
  currentPlatform : Option String
  youtubePlaying : Bool
  spotifyPlaying : Bool
  currentTrackTitle : Option String
  playCounts : String → Nat
  autoplayTimer : Option ℚ
  autoplayStartTime : Option ℚ
  autoplayDuration : Option ℚ
  autoplayRemaining : Option ℚ
  autoplayPaused : Bool
  queue : List Track

/-- Python truthiness of an optional string (`None` and `""` are falsy). -/
def pyTruthyStr : Option String → Bool
  | none => false
  | some s => s ≠ ""

/-- Python truthiness of an optional float (`None` and `0.0` are falsy). -/
def pyTruthyQ : Option ℚ → Bool
  | none => false
  | some x => x ≠ 0

/-- `RandomPlayer._track_key`: native URI if truthy, else the URL if truthy, else
the `platform:title - artist` composite. -/
def trackKey (t : Track) : String :=
  if pyTruthyStr t.uri then t.uri.getD ""
  else if t.url ≠ "" then t.url
  else t.platform ++ ":" ++ t.title ++ " - " ++ t.artist

/-- The play-count increment `self.play_counts[key] = self.play_counts.get(key, 0) + 1`
(the dictionary with default 0 is a total function). -/
def bumpCount (f : String → Nat) (k : String) : String → Nat :=
  fun k2 => if k2 = k then f k + 1 else f k2

/-- Python `min` over a list of naturals (the `[]` case is guarded at every use,
as the code guards it with `if counts else 0`). -/
def listMin : List Nat → Nat
  | [] => 0
  | x :: xs => xs.foldl min x

/-- The catalog slice selected in `_fill_queue`:
`self.all_tracks if platform is None else (youtube if platform == 'youtube' else spotify)`. -/
def sliceOf (platform : Option String) (s : PlayerState) : List Track :=
  match platform with
  | none => s.allTracks
  | some p => if p = "youtube" then s.youtubeTracks else s.spotifyTracks

/-- `RandomPlayer._fill_queue`, with `random.shuffle` abstracted as the function
`shuffle` applied to the candidate list. -/
def fillQueue (shuffle : List Track → List Track) (platform : Option String)
    (s : PlayerState) : PlayerState :=
  let tracks := sliceOf platform s
  if tracks = [] then s
  else
    let counts := tracks.map fun t => s.playCounts (trackKey t)
    let minCount := if counts = [] then 0 else listMin counts
    let candidates := ((tracks.zip counts).filter fun tc => tc.2 = minCount).map Prod.fst
    let candidates := if candidates = [] then tracks else candidates
    { s with queue := s.queue ++ shuffle candidates }

/-- The candidate set of `_fill_queue`: the tracks of the selected slice whose
ledger count equals the minimum count over the slice. -/
def minCandidates (platform : Option String) (s : PlayerState) : List Track :=
  (sliceOf platform s).filter fun t =>
    s.playCounts (trackKey t)
      = listMin ((sliceOf platform s).map fun t2 => s.playCounts (trackKey t2))

/-- `RandomPlayer._start_autoplay_timer` (`now` is `time.time()`; note the code
returns before cancelling anything when `duration` is `None` or nonpositive). -/
def startAutoplayTimer (duration : Option ℚ) (now : ℚ) (s : PlayerState) : PlayerState :=
  match duration with
  | none => s
  | some d =>
    if d ≤ 0 then s
    else
      { s with autoplayStartTime := some now, autoplayDuration := some d,
               autoplayRemaining := none, autoplayPaused := false,
               autoplayTimer := some d }

/-- The Spotify early-trigger adjustment on the fresh-tab path of `play_track`:
`duration - 4 if duration > 4 else duration`, then the sub-second fallback
`max(0.5, duration * 0.9)` when the result is below 1. -/
def spotifyTimerDurNew (d : ℚ) : ℚ :=
  let td := if d > 4 then d - 4 else d
  if td < 1 then max (1/2) (d * (9/10)) else td

/-- The Spotify early-trigger adjustment on the reused-tab path of `play_track`
(offset 5 instead of 4, same sub-second fallback). -/
def spotifyTimerDurReused (d : ℚ) : ℚ :=
  let td := if d > 5 then d - 5 else d
  if td < 1 then max (1/2) (d * (9/10)) else td

/-- The platform-dependent part of `RandomPlayer.play_track`: tab bookkeeping and
autoplay-timer arming. `reused` is the outcome of `_navigate_in_same_tab`;
opening tabs, keypresses and sleeps are external. -/
def playTrackSurface (reused : Bool) (now : ℚ) (t : Track) (s : PlayerState) : PlayerState :=
  if t.platform = "youtube" then
    let s1 := { s with currentTrackTitle := some t.title,
                       currentPlatform := some "youtube", youtubePlaying := true }
    if pyTruthyQ t.duration then startAutoplayTimer t.duration now s1 else s1
  else if t.platform = "spotify" then
    if reused then
      let s1 := { s with currentTrackTitle := some t.title,
                         currentPlatform := some "spotify", spotifyPlaying := true }
      if pyTruthyQ t.duration then
        startAutoplayTimer (some (spotifyTimerDurReused (t.duration.getD 0))) now s1
      else s1
    else
      let s1 := if s.youtubePlaying && pyTruthyStr s.currentTrackTitle then
          { s with youtubePlaying := false } else s
      let s2 := if s1.spotifyPlaying && pyTruthyStr s1.currentTrackTitle then
          { s1 with spotifyPlaying := false } else s1
      let s3 := { s2 with currentTrackTitle := some t.title }
      if t.url ≠ "" then
        let s4 := { s3 with currentPlatform := some "spotify", spotifyPlaying := true }
        if pyTruthyQ t.duration then
          startAutoplayTimer (some (spotifyTimerDurNew (t.duration.getD 0))) now s4
        else s4
      else s3
  else s

/-- `RandomPlayer.play_track`: surface/timer effects, then `played_tracks.append`
and the play-count increment (persisting the counts is external best-effort). -/
def playTrack (reused : Bool) (now : ℚ) (t : Track) (s : PlayerState) : PlayerState :=
  let s1 := playTrackSurface reused now t s
  { s1 with playedTracks := s1.playedTracks ++ [t],
            playCounts := bumpCount s1.playCounts (trackKey t) }

/-- `RandomPlayer._play_next_from_queue`: refill (whole catalog) when the queue is
empty, pop the head, play it. The first component is the track handed to
`play_track`; `none` models the "No tracks in queue!" report (no exception). -/
def playNextFromQueue (shuffle : List Track → List Track) (reused : Bool) (now : ℚ)
    (s : PlayerState) : Option Track × PlayerState :=
  let s1 := if s.queue = [] then fillQueue shuffle none s else s
  match s1.queue with
  | [] => (none, s1)
  | t :: rest => (some t, playTrack reused now t { s1 with queue := rest })

/-- `RandomPlayer.pause_playback` (timer bookkeeping only: focusing the tab and
the space keypress are external and modelled as succeeding, hence the `true`
result the code returns after an attempted keypress). -/
def pausePlayback (now : ℚ) (s : PlayerState) : Bool × PlayerState :=
  let s1 :=
    if s.autoplayTimer.isSome && !s.autoplayPaused then
      let remaining : Option ℚ :=
        if pyTruthyQ s.autoplayStartTime && pyTruthyQ s.autoplayDuration then
          some (s.autoplayDuration.getD 0 - (now - s.autoplayStartTime.getD now))
        else none
      { s with autoplayTimer := none,
               autoplayRemaining := remaining.map fun r => max (1/10) r,
               autoplayPaused := true }
    else if s.autoplayPaused && s.autoplayRemaining.isSome then
      let s2 := startAutoplayTimer s.autoplayRemaining now s
      { s2 with autoplayRemaining := none, autoplayPaused := false }
    else s
  (true, s1)

/-- The locked reconciliation section of `RandomPlayer.load_playlists`: install
the new per-source lists and their union, drop queue entries whose URL left the
union, then append union entries with new URLs that are not already queued. -/
def reconcileQueue (newYt newSp : List Track) (s : PlayerState) : PlayerState :=
  let oldAllTracks := s.allTracks
  let s1 := { s with youtubeTracks := newYt, spotifyTracks := newSp,
                     allTracks := newYt ++ newSp }
  let newUrls : List String := s1.allTracks.map fun a => a.url
  let removedTracks : List Track := s1.queue.filter fun t => ¬ (t.url ∈ newUrls)
  let s2 := if removedTracks = [] then s1
    else { s1 with queue := s1.queue.filter fun t => t.url ∈ newUrls }
  let oldUrls := oldAllTracks.map fun o => o.url
  let newTracks := s2.allTracks.filter fun t => ¬ (t.url ∈ oldUrls)
  if newTracks = [] then s2
  else
    { s2 with queue := s2.queue ++
        newTracks.filter fun t => ¬ (t.url ∈ s2.queue.map fun q => q.url) }

/-- `RandomPlayer._fetch_youtube_silent`: `some l` is a successful fetch, `none`
an exception — the except arm returns the previously known list. -/
def fetchYoutubeSilent (fetched : Option (List Track)) (s : PlayerState) : List Track :=
  match fetched with
  | some l => l
  | none => s.youtubeTracks

/-- `RandomPlayer._fetch_spotify_silent`: same fallback for the Spotify source. -/
def fetchSpotifySilent (fetched : Option (List Track)) (s : PlayerState) : List Track :=
  match fetched with
  | some l => l
  | none => s.spotifyTracks

/-- The pre-cycle minimum play count computed at the top of `load_playlists`
(`min_count = min(counts) if counts else 0`, over the old union catalog). -/
def preCycleMinCount (s : PlayerState) : Nat :=
  let counts := s.allTracks.map fun t => s.playCounts (trackKey t)
  if counts = [] then 0 else listMin counts

/-- A background (`silent=True`) cycle of `RandomPlayer.load_playlists`: fetch
each source with the silent fallback, filter each fetched list to tracks whose
count equals the pre-cycle minimum, then reconcile under the lock. `ytUrl` and
`spCreds` mirror the guards `if youtube_url:` and
`if spotify_url and spotify_client_id and spotify_client_secret:`. -/
def loadPlaylistsSilent (ytFetched spFetched : Option (List Track))
    (ytUrl spCreds : Bool) (s : PlayerState) : PlayerState :=
  let minCount := preCycleMinCount s
  let newYt := if ytUrl then
      (fetchYoutubeSilent ytFetched s).filter fun t => s.playCounts (trackKey t) = minCount
    else []
  let newSp := if spCreds then
      (fetchSpotifySilent spFetched s).filter fun t => s.playCounts (trackKey t) = minCount
    else []
  reconcileQueue newYt newSp s

/-- The queue reorder performed by the drag-release handler of the `Menu` window:
validate the source index (out of range is a no-op), pop it, then insert at the
target index clamped into the post-removal queue; a missing target appends at
the end. Indices are the 0-based `int(iid) - 1` values of the handler. -/
def reorderQueue (q : List Track) (fromIdx : ℤ) (toIdx : Option ℤ) : List Track :=
  if 0 ≤ fromIdx ∧ fromIdx < (q.length : ℤ) then
    let item := q.getD fromIdx.toNat default
    let q2 := q.eraseIdx fromIdx.toNat
    match toIdx with
    | none => q2 ++ [item]
    | some t0 =>
      let t1 := if fromIdx < t0 then max 0 t0 else t0
      let insertAt := min (max 0 t1) (q2.length : ℤ)
      q2.insertIdx insertAt.toNat item
  else q

/-- One `advance()` call: an invocation of `_play_next_from_queue` with arbitrary
shuffle randomness (any permutation-producing function), tab-reuse outcome and
clock reading. -/
def AdvanceStep (s s' : PlayerState) : Prop :=
  ∃ (shuffle : List Track → List Track) (reused : Bool) (now : ℚ),
    (∀ l : List Track, (shuffle l).Perm l) ∧
    s' = (playNextFromQueue shuffle reused now s).2

/-- Zero or more `advance()` calls. -/
inductive AdvanceReach : PlayerState → PlayerState → Prop
  | refl (s : PlayerState) : AdvanceReach s s
  | step {s t u : PlayerState} : AdvanceReach s t → AdvanceStep t u → AdvanceReach s u

/-- Invariant of the fairness argument: there is a round count `c` such that every
catalog track is at `c` or `c + 1`, and the queue is, up to order, exactly the
tracks still at `c` — or the configuration where the queue is empty and all
catalog counts equal `c`. -/
def FairInv (C : List Track) (s : PlayerState) : Prop :=
  s.allTracks = C ∧
  ∃ c : Nat,
    (∀ t ∈ C, s.playCounts (trackKey t) = c ∨ s.playCounts (trackKey t) = c + 1) ∧
    ((s.queue.Perm (C.filter fun t => s.playCounts (trackKey t) = c)) ∨
      (s.queue = [] ∧ ∀ t ∈ C, s.playCounts (trackKey t) = c))

/-- Concrete track builder for witnesses and counterexamples. -/
def mkTrack (title url : String) : Track :=
  { title := title, artist := "a", platform := "youtube", url := url }

/-- A player state with the given catalog and all bookkeeping reset. -/
def baseState (yt sp : List Track) : PlayerState :=
  { youtubeTracks := yt, spotifyTracks := sp, allTracks := yt ++ sp,
    playedTracks := [], currentPlatform := none, youtubePlaying := false,
    spotifyPlaying := false, currentTrackTitle := none, playCounts := fun _ => 0,
    autoplayTimer := none, autoplayStartTime := none, autoplayDuration := none,
    autoplayRemaining := none, autoplayPaused := false, queue := [] }

/-- Two distinct catalog entries sharing one URL — hence one identity key. -/
def trackA1 : Track := { title := "A", artist := "a", platform := "youtube", url := "u1" }

/-- Second entry with the same URL "u1" as `trackA1`. -/
def trackA2 : Track := { title := "A2", artist := "a", platform := "youtube", url := "u1" }

/-- A third entry with its own URL. -/
def trackB : Track := { title := "B", artist := "a", platform := "youtube", url := "u2" }

/-- Initial state of the duplicate-key scenario: three-entry catalog, empty
queue, all play counts equal (zero). -/
def dupInit : PlayerState := baseState [trackA1, trackA2, trackB] []

/-- The duplicate-key state after one `advance()` with the identity shuffle. -/
def dupS1 : PlayerState := (playNextFromQueue id false 0 dupInit).2

/-- The duplicate-key state after two `advance()` calls. -/
def dupS2 : PlayerState := (playNextFromQueue id false 0 dupS1).2

/-- Concrete track with URL "wa". -/
def wTrackA : Track := mkTrack "WA" "wa"

/-- Concrete track with URL "wb". -/
def wTrackB : Track := mkTrack "WB" "wb"

/-- Two-track catalog with distinct keys, empty queue, all counts zero. -/
def fairInit : PlayerState := baseState [wTrackA, wTrackB] []

/-- Concrete track with URL "ya". -/
def yTrackA : Track := mkTrack "YA" "ya"

/-- Concrete track with URL "yb". -/
def yTrackB : Track := mkTrack "YB" "yb"

/-- A state whose YouTube list has one track ("YA") above the minimum count. -/
def unevenState : PlayerState :=
  { baseState [yTrackA, yTrackB] [] with playCounts := fun k => if k = "ya" then 1 else 0 }

/-- An idle state: empty catalog, nothing playing, no armed or paused timer. -/
def idleState : PlayerState := baseState [] []

/-- A state whose autoplay timer is armed with duration 30 started at time 100. -/
def armedState : PlayerState :=
  { baseState [] [] with autoplayTimer := some 30, autoplayStartTime := some 100,
                         autoplayDuration := some 30 }

/-- A Spotify track of duration 10 seconds. -/
def spTrack : Track :=
  { title := "S", artist := "a", platform := "spotify", url := "su", duration := some 10 }

/-- A state with catalog `[yTrackA]` and queue `[yTrackA, yTrackB]`. -/
def reconState : PlayerState := { baseState [yTrackA] [] with queue := [yTrackA, yTrackB] }

/-! ## Basic lemmas about the embedded operations -/

theorem foldl_min_mem (x : Nat) (xs : List Nat) : xs.foldl min x ∈ x :: xs := by
  induction xs generalizing x with
  | nil => simp
  | cons y ys ih =>
    have h := ih (min x y)
    rcases List.mem_cons.1 h with h2 | h2
    · rcases min_choice x y with h1 | h1
      · exact List.mem_cons.2 (Or.inl (h2.trans h1))
      · simp [List.foldl, h2.trans h1]
    · simp [List.foldl, h2]

theorem listMin_mem {l : List Nat} (h : l ≠ []) : listMin l ∈ l := by
  cases l with
  | nil => exact absurd rfl h
  | cons x xs => exact foldl_min_mem x xs

theorem listMin_of_all_eq {l : List Nat} {c : Nat} (h : l ≠ []) (hall : ∀ x ∈ l, x = c) :
    listMin l = c :=
  hall _ (listMin_mem h)

theorem bumpCount_key (f : String → Nat) (k : String) : bumpCount f k k = f k + 1 := by
  simp [bumpCount]

theorem bumpCount_other (f : String → Nat) {k k2 : String} (h : k2 ≠ k) :
    bumpCount f k k2 = f k2 := by
  simp [bumpCount, h]

theorem zip_counts_filter (f : Track → Nat) (m : Nat) :
    ∀ l : List Track,
      ((l.zip (l.map f)).filter fun tc => tc.2 = m).map Prod.fst
        = l.filter fun t => f t = m
  | [] => rfl
  | t :: l => by
    simp only [List.map_cons, List.zip_cons_cons, List.filter_cons]
    by_cases h : f t = m
    · simp [h, zip_counts_filter f m l]
    · simp [h, zip_counts_filter f m l]

theorem startAutoplayTimer_queue (d : Option ℚ) (now : ℚ) (s : PlayerState) :
    (startAutoplayTimer d now s).queue = s.queue := by
  unfold startAutoplayTimer
  cases d with
  | none => rfl
  | some x => by_cases h : x ≤ 0 <;> simp [h]

theorem startAutoplayTimer_allTracks (d : Option ℚ) (now : ℚ) (s : PlayerState) :
    (startAutoplayTimer d now s).allTracks = s.allTracks := by
  unfold startAutoplayTimer
  cases d with
  | none => rfl
  | some x => by_cases h : x ≤ 0 <;> simp [h]

theorem startAutoplayTimer_playCounts (d : Option ℚ) (now : ℚ) (s : PlayerState) :
    (startAutoplayTimer d now s).playCounts = s.playCounts := by
  unfold startAutoplayTimer
  cases d with
  | none => rfl
  | some x => by_cases h : x ≤ 0 <;> simp [h]

theorem playTrackSurface_queue (r : Bool) (now : ℚ) (t : Track) (s : PlayerState) :
    (playTrackSurface r now t s).queue = s.queue := by
  unfold playTrackSurface
  repeat' split
  all_goals simp [startAutoplayTimer_queue, apply_ite PlayerState.queue]

theorem playTrackSurface_allTracks (r : Bool) (now : ℚ) (t : Track) (s : PlayerState) :
    (playTrackSurface r now t s).allTracks = s.allTracks := by
  unfold playTrackSurface
  repeat' split
  all_goals simp [startAutoplayTimer_allTracks, apply_ite PlayerState.allTracks]

theorem playTrackSurface_playCounts (r : Bool) (now : ℚ) (t : Track) (s : PlayerState) :
    (playTrackSurface r now t s).playCounts = s.playCounts := by
  unfold playTrackSurface
  repeat' split
  all_goals simp [startAutoplayTimer_playCounts, apply_ite PlayerState.playCounts]

theorem playTrack_queue (r : Bool) (now : ℚ) (t : Track) (s : PlayerState) :
    (playTrack r now t s).queue = s.queue := by
  unfold playTrack
  simp [playTrackSurface_queue]

theorem playTrack_allTracks (r : Bool) (now : ℚ) (t : Track) (s : PlayerState) :
    (playTrack r now t s).allTracks = s.allTracks := by
  unfold playTrack
  simp [playTrackSurface_allTracks]

theorem playTrack_playCounts (r : Bool) (now : ℚ) (t : Track) (s : PlayerState) :
    (playTrack r now t s).playCounts = bumpCount s.playCounts (trackKey t) := by
  unfold playTrack
  simp [playTrackSurface_playCounts]

theorem fillQueue_of_slice_nil (shuffle : List Track → List Track) (platform : Option String)
    (s : PlayerState) (h : sliceOf platform s = []) :
    fillQueue shuffle platform s = s := by
  unfold fillQueue
  simp [h]

theorem minCandidates_ne_nil (platform : Option String) (s : PlayerState)
    (h : sliceOf platform s ≠ []) : minCandidates platform s ≠ [] := by
  have hc : ((sliceOf platform s).map fun t => s.playCounts (trackKey t)) ≠ [] := by
    simpa using h
  obtain ⟨t, ht, hft⟩ := List.mem_map.1 (listMin_mem hc)
  exact List.ne_nil_of_mem (List.mem_filter.2 ⟨ht, by simp [hft]⟩)

theorem fillQueue_of_slice_ne_nil (shuffle : List Track → List Track)
    (platform : Option String) (s : PlayerState) (h : sliceOf platform s ≠ []) :
    fillQueue shuffle platform s
      = { s with queue := s.queue ++ shuffle (minCandidates platform s) } := by
  have hc : ((sliceOf platform s).map fun t => s.playCounts (trackKey t)) ≠ [] := by
    simpa using h
  have hne2 := minCandidates_ne_nil platform s h
  unfold minCandidates at hne2 ⊢
  unfold fillQueue
  simp only [if_neg h, if_neg hc, zip_counts_filter, if_neg hne2]

theorem minCandidates_of_all_eq (platform : Option String) (s : PlayerState) (c : Nat)
    (h : sliceOf platform s ≠ [])
    (hall : ∀ t ∈ sliceOf platform s, s.playCounts (trackKey t) = c) :
    minCandidates platform s = sliceOf platform s := by
  unfold minCandidates
  have hmin : listMin ((sliceOf platform s).map fun t2 => s.playCounts (trackKey t2)) = c := by
    apply listMin_of_all_eq (by simpa using h)
    intro x hx
    obtain ⟨t, ht, rfl⟩ := List.mem_map.1 hx
    exact hall t ht
  rw [hmin]
  apply List.filter_eq_self.2
  intro a ha
  simp [hall a ha]

theorem filter_bump_erase (f : String → Nat) (c : Nat) :
    ∀ C : List Track, (C.map trackKey).Nodup → ∀ t ∈ C, f (trackKey t) = c →
      (C.filter fun u => bumpCount f (trackKey t) (trackKey u) = c)
        = (C.filter fun u => f (trackKey u) = c).erase t := by
  intro C
  induction C with
  | nil => intro _ t ht; cases ht
  | cons u C ih =>
    intro hnd t ht htc
    obtain ⟨hu, hnd2⟩ := List.nodup_cons.1 hnd
    rcases List.mem_cons.1 ht with rfl | htC
    · have h1 : ¬ (bumpCount f (trackKey t) (trackKey t) = c) := by
        rw [bumpCount_key, htc]; omega
      have hcg : (C.filter fun v => bumpCount f (trackKey t) (trackKey v) = c)
          = C.filter fun v => f (trackKey v) = c := by
        apply List.filter_congr
        intro v hv
        have hkey : trackKey v ≠ trackKey t := by
          intro he
          exact hu (he ▸ List.mem_map_of_mem trackKey hv)
        simp [bumpCount_other f hkey]
      simp only [List.filter_cons, decide_eq_true_eq, if_neg h1, if_pos htc]
      rw [List.erase_cons_head, hcg]
    · have hkey : trackKey u ≠ trackKey t := by
        intro he
        exact hu (he ▸ List.mem_map_of_mem trackKey htC)
      have hut : u ≠ t := fun he => hkey (congrArg trackKey he)
      have hbu : bumpCount f (trackKey t) (trackKey u) = f (trackKey u) :=
        bumpCount_other f hkey
      have herase : ∀ l : List Track, (u :: l).erase t = u :: l.erase t := by
        intro l
        exact List.erase_cons_tail (by simpa using hut)
      by_cases hc2 : f (trackKey u) = c
      · simp only [List.filter_cons, decide_eq_true_eq, hbu, if_pos hc2]
        rw [herase, ih hnd2 t htC htc]
      · simp only [List.filter_cons, decide_eq_true_eq, hbu, if_neg hc2]
        exact ih hnd2 t htC htc

theorem playNextFromQueue_cons (shuffle : List Track → List Track) (r : Bool) (now : ℚ)
    (s : PlayerState) (t : Track) (rest : List Track) (hq : s.queue = t :: rest) :
    playNextFromQueue shuffle r now s
      = (some t, playTrack r now t { s with queue := rest }) := by
  unfold playNextFromQueue
  rw [if_neg (by rw [hq]; simp)]
  simp only [hq]

theorem playNextFromQueue_fill_cons (shuffle : List Track → List Track) (r : Bool)
    (now : ℚ) (s : PlayerState) (t : Track) (rest : List Track) (hq : s.queue = [])
    (hcons : (fillQueue shuffle none s).queue = t :: rest) :
    playNextFromQueue shuffle r now s
      = (some t, playTrack r now t { fillQueue shuffle none s with queue := rest }) := by
  unfold playNextFromQueue
  rw [if_pos hq]
  simp only [hcons]

theorem playNextFromQueue_fill_nil (shuffle : List Track → List Track) (r : Bool)
    (now : ℚ) (s : PlayerState) (hq : s.queue = [])
    (hnil : (fillQueue shuffle none s).queue = []) :
    playNextFromQueue shuffle r now s = (none, fillQueue shuffle none s) := by
  unfold playNextFromQueue
  rw [if_pos hq]
  simp only [hnil]

theorem playStep_inv (C : List Track) (hnd : (C.map trackKey).Nodup) (c : Nat)
    (s : PlayerState) (t : Track) (rest : List Track) (r : Bool) (now : ℚ)
    (hall : s.allTracks = C)
    (hcnt : ∀ u ∈ C, s.playCounts (trackKey u) = c ∨ s.playCounts (trackKey u) = c + 1)
    (hperm : s.queue.Perm (C.filter fun u => s.playCounts (trackKey u) = c))
    (hq : s.queue = t :: rest) :
    FairInv C (playTrack r now t { s with queue := rest }) := by
  have htf : t ∈ C.filter fun u => s.playCounts (trackKey u) = c := by
    have ht : t ∈ s.queue := by rw [hq]; exact List.mem_cons_self t rest
    exact hperm.mem_iff.1 ht
  have htC : t ∈ C := (List.mem_filter.1 htf).1
  have htc : s.playCounts (trackKey t) = c := by
    have h2 := (List.mem_filter.1 htf).2
    simpa using h2
  have hcounts : (playTrack r now t { s with queue := rest }).playCounts
      = bumpCount s.playCounts (trackKey t) := playTrack_playCounts r now t _
  have hrest : (playTrack r now t { s with queue := rest }).queue = rest :=
    playTrack_queue r now t _
  refine ⟨by rw [playTrack_allTracks]; exact hall, c, ?_, Or.inl ?_⟩
  · intro u hu
    rw [hcounts]
    by_cases hk : trackKey u = trackKey t
    · have heq : u = t := List.inj_on_of_nodup_map hnd hu htC hk
      subst heq
      exact Or.inr (by rw [bumpCount_key, htc])
    · rw [bumpCount_other _ hk]
      exact hcnt u hu
  · rw [hcounts, hrest]
    have h1 : (t :: rest).Perm (C.filter fun u => s.playCounts (trackKey u) = c) :=
      hq ▸ hperm
    have h2 := (List.cons_perm_iff_perm_erase.1 h1).2
    rw [filter_bump_erase s.playCounts c C hnd t htC htc]
    exact h2

theorem advanceStep_inv (C : List Track) (hne : C ≠ []) (hnd : (C.map trackKey).Nodup)
    {s s2 : PlayerState} (hstep : AdvanceStep s s2) (hinv : FairInv C s) : FairInv C s2 := by
  obtain ⟨shuffle, r, now, hsh, rfl⟩ := hstep
  obtain ⟨hall, c, hcnt, hdis⟩ := hinv
  by_cases hq : s.queue = []
  · have hconst : ∃ c2, ∀ u ∈ C, s.playCounts (trackKey u) = c2 := by
      rcases hdis with hperm | ⟨_, hc2⟩
      · have hfil : (C.filter fun u => s.playCounts (trackKey u) = c) = [] := by
          have h0 : List.Perm [] (C.filter fun u => s.playCounts (trackKey u) = c) :=
            hq ▸ hperm
          exact (h0.symm.eq_nil)
        refine ⟨c + 1, fun u hu => ?_⟩
        rcases hcnt u hu with h1 | h1
        · have hmem : u ∈ C.filter fun v => s.playCounts (trackKey v) = c :=
            List.mem_filter.2 ⟨hu, by simp [h1]⟩
          rw [hfil] at hmem
          cases hmem
        · exact h1
      · exact ⟨c, hc2⟩
    obtain ⟨c2, hc2⟩ := hconst
    have hCne : sliceOf none s ≠ [] := by
      simpa [sliceOf, hall] using hne
    have hallm : ∀ u ∈ sliceOf none s, s.playCounts (trackKey u) = c2 := by
      intro u hu
      exact hc2 u (by simpa [sliceOf, hall] using hu)
    have hmc : minCandidates none s = C := by
      rw [minCandidates_of_all_eq none s c2 hCne hallm]
      simp [sliceOf, hall]
    have hfill := fillQueue_of_slice_ne_nil shuffle none s hCne
    rw [hmc] at hfill
    have hqf : (fillQueue shuffle none s).queue = shuffle C := by
      rw [hfill]
      simp [hq]
    have hpermC : (shuffle C).Perm C := hsh C
    have hsne : shuffle C ≠ [] := by
      intro h0
      rw [h0] at hpermC
      exact hne hpermC.nil_eq.symm
    obtain ⟨t, rest, hcons⟩ := List.exists_cons_of_ne_nil hsne
    rw [playNextFromQueue_fill_cons shuffle r now s t rest hq (by rw [hqf, hcons])]
    show FairInv C (playTrack r now t { fillQueue shuffle none s with queue := rest })
    rw [hfill]
    have hfe : (C.filter fun u => s.playCounts (trackKey u) = c2) = C := by
      apply List.filter_eq_self.2
      intro a ha
      simp [hc2 a ha]
    apply playStep_inv C hnd c2 { s with queue := s.queue ++ shuffle C } t rest r now
    · exact hall
    · intro u hu
      exact Or.inl (hc2 u hu)
    · show (s.queue ++ shuffle C).Perm (C.filter fun u => s.playCounts (trackKey u) = c2)
      rw [hq, hfe]
      simpa using hpermC
    · show s.queue ++ shuffle C = t :: rest
      rw [hq]
      simpa using hcons
  · rcases hdis with hperm | ⟨hq2, _⟩
    · obtain ⟨t, rest, hcons⟩ := List.exists_cons_of_ne_nil hq
      rw [playNextFromQueue_cons shuffle r now s t rest hcons]
      show FairInv C (playTrack r now t { s with queue := rest })
      exact playStep_inv C hnd c s t rest r now hall hcnt hperm hcons
    · exact absurd hq2 hq

theorem advanceReach_inv (C : List Track) (hne : C ≠ []) (hnd : (C.map trackKey).Nodup)
    {s s2 : PlayerState} (hreach : AdvanceReach s s2) (hinv : FairInv C s) : FairInv C s2 := by
  induction hreach with
  | refl => exact hinv
  | step _ hst ih => exact advanceStep_inv C hne hnd hst ih

theorem filter_not_nil_eq_self {α : Type} (p : α → Prop) [DecidablePred p] {l : List α}
    (h : (l.filter fun a => ¬ p a) = []) : (l.filter fun a => p a) = l := by
  apply List.filter_eq_self.2
  intro a ha
  have h2 := List.filter_eq_nil_iff.1 h a ha
  simpa using h2

theorem reconcileQueue_youtubeTracks (newYt newSp : List Track) (s : PlayerState) :
    (reconcileQueue newYt newSp s).youtubeTracks = newYt := by
  unfold reconcileQueue
  dsimp only
  split_ifs <;> rfl

theorem reconcileQueue_spotifyTracks (newYt newSp : List Track) (s : PlayerState) :
    (reconcileQueue newYt newSp s).spotifyTracks = newSp := by
  unfold reconcileQueue
  dsimp only
  split_ifs <;> rfl

theorem reconcileQueue_allTracks (newYt newSp : List Track) (s : PlayerState) :
    (reconcileQueue newYt newSp s).allTracks = newYt ++ newSp := by
  unfold reconcileQueue
  dsimp only
  split_ifs <;> rfl

theorem reconcileQueue_queue (newYt newSp : List Track) (s : PlayerState) :
    (reconcileQueue newYt newSp s).queue
      = (s.queue.filter fun t => t.url ∈ (newYt ++ newSp).map fun a => a.url)
        ++ (((newYt ++ newSp).filter fun t =>
              ¬ (t.url ∈ s.allTracks.map fun a => a.url)).filter
            fun t => ¬ (t.url ∈ ((s.queue.filter fun t2 =>
              t2.url ∈ (newYt ++ newSp).map fun a => a.url).map fun q => q.url))) := by
  unfold reconcileQueue
  dsimp only
  by_cases h1 :
      (s.queue.filter fun t => ¬ (t.url ∈ (newYt ++ newSp).map fun a => a.url)) = []
  · rw [if_pos h1]
    dsimp only
    have hself := filter_not_nil_eq_self
      (fun t : Track => t.url ∈ (newYt ++ newSp).map fun a => a.url) h1
    dsimp only at hself
    by_cases h2 :
        (((newYt ++ newSp)).filter fun t => ¬ (t.url ∈ s.allTracks.map fun a => a.url)) = []
    · rw [if_pos h2]
      dsimp only
      rw [h2, List.filter_nil, List.append_nil]
      exact hself.symm
    · rw [if_neg h2]
      dsimp only
      rw [hself]
  · rw [if_neg h1]
    dsimp only
    by_cases h2 :
        (((newYt ++ newSp)).filter fun t => ¬ (t.url ∈ s.allTracks.map fun a => a.url)) = []
    · rw [if_pos h2]
      dsimp only
      rw [h2, List.filter_nil, List.append_nil]
    · rw [if_neg h2]

theorem spotifyTimerDurNew_pos {d : ℚ} (hd : 0 < d) : 0 < spotifyTimerDurNew d := by
  unfold spotifyTimerDurNew
  dsimp only
  split_ifs
  all_goals first
    | linarith
    | exact lt_of_lt_of_le (by norm_num) (le_max_left _ _)

theorem spotifyTimerDurReused_pos {d : ℚ} (hd : 0 < d) : 0 < spotifyTimerDurReused d := by
  unfold spotifyTimerDurReused
  dsimp only
  split_ifs
  all_goals first
    | linarith
    | exact lt_of_lt_of_le (by norm_num) (le_max_left _ _)

/-! ## Claim theorems -/

/-- C2: `refill(scope)` (`RandomPlayer._fill_queue`). For every catalog slice and
ledger: if the selected slice is empty the whole state — in particular the queue
— is unchanged; otherwise exactly the slice tracks whose ledger count (default 0
for unseen keys) equals the minimum count over the slice are appended, as a
permutation of that candidate set, to the end of the existing queue, and no
other state field changes, so the pre-existing queue prefix is never replaced
or truncated. -/
theorem fill_queue_spec (shuffle : List Track → List Track)
    (hsh : ∀ l : List Track, (shuffle l).Perm l)
    (platform : Option String) (s : PlayerState) :
    (sliceOf platform s = [] → fillQueue shuffle platform s = s) ∧
    (sliceOf platform s ≠ [] →
      fillQueue shuffle platform s
          = { s with queue := s.queue ++ shuffle (minCandidates platform s) } ∧
        (shuffle (minCandidates platform s)).Perm (minCandidates platform s)) :=
  ⟨fun h => fillQueue_of_slice_nil shuffle platform s h,
   fun h => ⟨fillQueue_of_slice_ne_nil shuffle platform s h, hsh _⟩⟩

/-- C2 witness: a concrete refill over a two-track catalog at equal counts
appends both tracks to the empty queue. -/
theorem fill_queue_spec_witness :
    fillQueue id none fairInit = { fairInit with queue := [wTrackA, wTrackB] } := by
  have h := ((fill_queue_spec id (fun l => List.Perm.refl l) none fairInit).2
    (by decide)).1
  exact h.trans (by rfl)

/-- C6 counterexample: `_start_autoplay_timer` returns before cancelling anything
when the duration is nonpositive, so arming `armedState` (live timer of 30) with
duration 0 leaves the timer live — the claim that the timer is left Unarmed
(after cancelling any existing timer) is false as stated. -/
theorem arm_nonpositive_counterexample :
    ¬ (∀ (s : PlayerState) (now d : ℚ), d ≤ 0 →
        (startAutoplayTimer (some d) now s).autoplayTimer = none) := by
  intro h
  have h2 := h armedState 7 0 le_rfl
  have h3 : (startAutoplayTimer (some 0) 7 armedState).autoplayTimer = some 30 := rfl
  rw [h3] at h2
  cases h2

/-- C6 amended: `arm(duration)` (`_start_autoplay_timer`): a nonpositive duration
is a complete no-op — the state, including any live timer, is unchanged and
nothing is cancelled; a positive duration arms (cancelling any previous timer by
replacing it) with start-time `now` and the given duration. -/
theorem arm_semantics (s : PlayerState) (now d : ℚ) :
    (d ≤ 0 → startAutoplayTimer (some d) now s = s) ∧
    (0 < d → startAutoplayTimer (some d) now s
        = { s with autoplayStartTime := some now, autoplayDuration := some d,
                   autoplayRemaining := none, autoplayPaused := false,
                   autoplayTimer := some d }) := by
  constructor
  · intro h
    unfold startAutoplayTimer
    dsimp only
    rw [if_pos h]
  · intro h
    unfold startAutoplayTimer
    dsimp only
    rw [if_neg (not_le.2 h)]

/-- C6 witness: arming `armedState` with duration 3 at time 7 replaces the
timer and the bookkeeping. -/
theorem arm_semantics_witness :
    startAutoplayTimer (some 3) 7 armedState
      = { armedState with autoplayStartTime := some 7, autoplayDuration := some 3,
                          autoplayRemaining := none, autoplayPaused := false,
                          autoplayTimer := some 3 } :=
  (arm_semantics armedState 7 3).2 (by norm_num)

/-- C9: `advance()` on an empty queue (`_play_next_from_queue`): the queue is
first refilled over the whole catalog (`platform = None`), then the head is
removed and handed to `play_track`; the call reports nothing to play — yielding
`none` rather than raising (the embedding is a total function) — exactly when
the catalog itself is empty, in which case the state is also unchanged. -/
theorem play_next_empty_queue (shuffle : List Track → List Track)
    (hsh : ∀ l : List Track, (shuffle l).Perm l) (r : Bool) (now : ℚ)
    (s : PlayerState) (hq : s.queue = []) :
    ((playNextFromQueue shuffle r now s).1 = none ↔ s.allTracks = []) ∧
    (s.allTracks = [] → (playNextFromQueue shuffle r now s).2 = s) ∧
    (s.allTracks ≠ [] → ∃ t rest, (fillQueue shuffle none s).queue = t :: rest ∧
      playNextFromQueue shuffle r now s
        = (some t, playTrack r now t { fillQueue shuffle none s with queue := rest })) := by
  by_cases hA : s.allTracks = []
  · have hfq : fillQueue shuffle none s = s :=
      fillQueue_of_slice_nil shuffle none s (by simpa [sliceOf] using hA)
    have hpn := playNextFromQueue_fill_nil shuffle r now s hq (by rw [hfq]; exact hq)
    rw [hpn]
    exact ⟨by simp [hA], fun _ => hfq, fun hc => absurd hA hc⟩
  · have hCne : sliceOf none s ≠ [] := by simpa [sliceOf] using hA
    have hfill := fillQueue_of_slice_ne_nil shuffle none s hCne
    have hqf : (fillQueue shuffle none s).queue = shuffle (minCandidates none s) := by
      rw [hfill]
      simp [hq]
    have hsne : shuffle (minCandidates none s) ≠ [] := by
      intro h0
      have hp := hsh (minCandidates none s)
      rw [h0] at hp
      exact minCandidates_ne_nil none s hCne hp.nil_eq.symm
    obtain ⟨t, rest, hcons⟩ := List.exists_cons_of_ne_nil hsne
    have hpn := playNextFromQueue_fill_cons shuffle r now s t rest hq (by rw [hqf, hcons])
    rw [hpn]
    exact ⟨by simp [hA], fun hc => absurd hc hA,
      fun _ => ⟨t, rest, by rw [hqf, hcons], rfl⟩⟩

/-- C9 witness: with an empty catalog and empty queue, `advance()` reports
nothing to play and leaves the state unchanged. -/
theorem play_next_empty_queue_witness :
    (playNextFromQueue id false 0 idleState).1 = none ∧
    (playNextFromQueue id false 0 idleState).2 = idleState := by
  have h := play_next_empty_queue id (fun l => List.Perm.refl l) false 0 idleState rfl
  exact ⟨h.1.2 rfl, h.2.1 rfl⟩

/-- C10 counterexample: with no active session (`idleState`: no current track, no
armed or paused autoplay timer) `pause_playback` leaves the state unchanged but
still attempts the keypress and returns `True` — it does not report a failure
result, contradicting the claim. -/
theorem pause_no_session_counterexample :
    idleState.currentTrackTitle = none ∧ idleState.autoplayTimer = none ∧
    idleState.autoplayPaused = false ∧
    (pausePlayback 100 idleState).2 = idleState ∧
    (pausePlayback 100 idleState).1 = true ∧
    ¬ ((pausePlayback 100 idleState).1 = false) := by
  refine ⟨rfl, rfl, rfl, rfl, rfl, ?_⟩
  intro h
  cases h

/-- C10 amended: `pause_playback` with no active session (no current track and no
armed or paused autoplay timer) is a no-op on the playback/timer state but
returns `True` (success), since its boolean result only reports that the
keypress was attempted. -/
theorem pause_no_session_noop (now : ℚ) (s : PlayerState)
    (htitle : s.currentTrackTitle = none) (htimer : s.autoplayTimer = none)
    (hpaused : s.autoplayPaused = false) :
    pausePlayback now s = (true, s) := by
  unfold pausePlayback
  simp [htimer, hpaused]

/-- C10 witness: the no-session no-op at a concrete idle state. -/
theorem pause_no_session_noop_witness :
    pausePlayback 42 idleState = (true, idleState) :=
  pause_no_session_noop 42 idleState rfl rfl rfl

theorem pausePlayback_pause (now : ℚ) (s : PlayerState) (st d : ℚ)
    (htimer : s.autoplayTimer.isSome = true) (hp : s.autoplayPaused = false)
    (hst : s.autoplayStartTime = some st) (hst0 : st ≠ 0)
    (hd : s.autoplayDuration = some d) (hd0 : d ≠ 0) :
    (pausePlayback now s).2
      = { s with autoplayTimer := none,
                 autoplayRemaining := some (max (1/10) (d - (now - st))),
                 autoplayPaused := true } := by
  unfold pausePlayback
  simp [htimer, hp, hst, hd, pyTruthyQ, hst0, hd0]

theorem pausePlayback_resume (now : ℚ) (s : PlayerState) (r : ℚ)
    (htimer : s.autoplayTimer = none) (hp : s.autoplayPaused = true)
    (hr : s.autoplayRemaining = some r) (hrpos : ¬ r ≤ 0) :
    (pausePlayback now s).2
      = { s with autoplayTimer := some r, autoplayStartTime := some now,
                 autoplayDuration := some r, autoplayRemaining := none,
                 autoplayPaused := false } := by
  unfold pausePlayback startAutoplayTimer
  rw [htimer, hp, hr]
  simp [hrpos]

/-- C5: pause/resume arithmetic of `pause_playback`. Pausing while Armed (live
timer, not paused, truthy start-time and duration) cancels the countdown,
records `remaining = max(0.1, duration - (now - start_time))` and moves to
Paused; invoking the toggle again from Paused re-arms via
`_start_autoplay_timer` with duration equal to the recorded remaining value and
clears the paused bookkeeping. -/
theorem pause_resume_arithmetic (s : PlayerState) (now now2 st d : ℚ)
    (htimer : s.autoplayTimer.isSome = true) (hp : s.autoplayPaused = false)
    (hst : s.autoplayStartTime = some st) (hst0 : st ≠ 0)
    (hd : s.autoplayDuration = some d) (hd0 : d ≠ 0) :
    ((pausePlayback now s).2.autoplayTimer = none ∧
     (pausePlayback now s).2.autoplayPaused = true ∧
     (pausePlayback now s).2.autoplayRemaining = some (max (1/10) (d - (now - st)))) ∧
    (pausePlayback now2 (pausePlayback now s).2).2
      = { (pausePlayback now s).2 with
          autoplayTimer := some (max (1/10) (d - (now - st))),
          autoplayStartTime := some now2,
          autoplayDuration := some (max (1/10) (d - (now - st))),
          autoplayRemaining := none, autoplayPaused := false } := by
  have hs1 := pausePlayback_pause now s st d htimer hp hst hst0 hd hd0
  have hrpos : ¬ (max ((1:ℚ)/10) (d - (now - st)) ≤ 0) := by
    have h10 := le_max_left ((1:ℚ)/10) (d - (now - st))
    intro hle
    linarith
  constructor
  · rw [hs1]
    exact ⟨rfl, rfl, rfl⟩
  · rw [hs1]
    exact pausePlayback_resume now2 _ _ rfl rfl rfl hrpos

/-- C5 witness: arming at 100 for 30 seconds, pausing at 110 records 20 seconds
remaining; resuming at 115 re-arms for 20 seconds starting at 115. -/
theorem pause_resume_arithmetic_witness :
    (pausePlayback 110 armedState).2.autoplayRemaining = some 20 ∧
    (pausePlayback 115 (pausePlayback 110 armedState).2).2.autoplayDuration = some 20 ∧
    (pausePlayback 115 (pausePlayback 110 armedState).2).2.autoplayStartTime = some 115 := by
  have h := pause_resume_arithmetic armedState 110 115 100 30 rfl rfl rfl
    (by norm_num) rfl (by norm_num)
  have hval : max ((1:ℚ)/10) (30 - (110 - 100)) = 20 := by norm_num
  refine ⟨?_, ?_, ?_⟩
  · rw [h.1.2.2, hval]
  · rw [h.2]
    show some (max ((1:ℚ)/10) (30 - (110 - 100))) = some 20
    rw [hval]
  · rw [h.2]

/-- C3: reconciliation correctness of the locked section of `load_playlists`.
With new catalog `C2 = newYt ++ newSp`: (i) after the cycle no queue entry has a
URL absent from `C2`; (ii) every entry of `C2` whose URL is absent from the old
catalog and not already among the queued URLs ends up in the queue; (iii) the
new queue is exactly the old queue filtered to URLs surviving in `C2` (a
sublist of the old queue, so the relative order of the remaining entries is
preserved) followed by the appended new entries. -/
theorem reconcile_queue_correct (newYt newSp : List Track) (s : PlayerState) :
    (∀ t ∈ (reconcileQueue newYt newSp s).queue,
        t.url ∈ (newYt ++ newSp).map fun a => a.url) ∧
    (∀ t ∈ newYt ++ newSp, ¬ (t.url ∈ s.allTracks.map fun a => a.url) →
        ¬ (t.url ∈ s.queue.map fun a => a.url) →
        t ∈ (reconcileQueue newYt newSp s).queue) ∧
    ((reconcileQueue newYt newSp s).queue
      = (s.queue.filter fun t => t.url ∈ (newYt ++ newSp).map fun a => a.url)
        ++ (((newYt ++ newSp).filter fun t =>
              ¬ (t.url ∈ s.allTracks.map fun a => a.url)).filter
            fun t => ¬ (t.url ∈ ((s.queue.filter fun t2 =>
              t2.url ∈ (newYt ++ newSp).map fun a => a.url).map fun q => q.url)))) ∧
    ((s.queue.filter fun t => t.url ∈ (newYt ++ newSp).map fun a => a.url).Sublist
      s.queue) := by
  have hdec := reconcileQueue_queue newYt newSp s
  refine ⟨?_, ?_, hdec, List.filter_sublist s.queue⟩
  · intro t ht
    rw [hdec] at ht
    rcases List.mem_append.1 ht with h | h
    · have h2 := (List.mem_filter.1 h).2
      simpa using h2
    · have h2 := (List.mem_filter.1 (List.mem_filter.1 h).1).1
      exact List.mem_map_of_mem (fun a => a.url) h2
  · intro t ht hold hq
    rw [hdec]
    apply List.mem_append.2
    right
    apply List.mem_filter.2
    refine ⟨List.mem_filter.2 ⟨ht, by simpa using hold⟩, ?_⟩
    have hnot : ¬ (t.url ∈ ((s.queue.filter fun t2 =>
        t2.url ∈ (newYt ++ newSp).map fun a => a.url).map fun q => q.url)) := by
      intro hmem
      obtain ⟨q, hqf, hqe⟩ := List.mem_map.1 hmem
      exact hq (hqe ▸ List.mem_map_of_mem (fun a => a.url) (List.mem_filter.1 hqf).1)
    simpa using hnot

/-- C3 witness: catalog sync installing `[yTrackA, wTrackA]` against queue
`[yTrackA, yTrackB]` removes the vanished `yTrackB`, keeps order, and appends
the genuinely new `wTrackA`. -/
theorem reconcile_queue_correct_witness :
    (reconcileQueue [yTrackA, wTrackA] [] reconState).queue
      = [yTrackA, wTrackA] ∧
    wTrackA ∈ (reconcileQueue [yTrackA, wTrackA] [] reconState).queue := by
  constructor
  · have h := (reconcile_queue_correct [yTrackA, wTrackA] [] reconState).2.2.1
    rw [h]
    rfl
  · exact (reconcile_queue_correct [yTrackA, wTrackA] [] reconState).2.1 wTrackA
      (by decide) (by decide) (by decide)

/-- C4 counterexample: in `unevenState` the YouTube track "YA" has count 1 while
the pre-cycle minimum is 0. A failed silent fetch falls back to the previous
list, but `load_playlists` still applies the min-count pre-filter to it, so the
published YouTube list drops "YA" and is not the pre-cycle list — the cycle is
not a no-op for that source. -/
theorem silent_failure_counterexample :
    unevenState.youtubeTracks = [yTrackA, yTrackB] ∧
    (loadPlaylistsSilent none none true false unevenState).youtubeTracks = [yTrackB] ∧
    ¬ ((loadPlaylistsSilent none none true false unevenState).youtubeTracks
        = unevenState.youtubeTracks) := by
  refine ⟨rfl, ?_, ?_⟩ <;> decide

/-- C4 amended: when the silent YouTube fetch fails (`_fetch_youtube_silent`
returns the previously-known list), the published YouTube list after the cycle
is the previously-known list filtered to tracks whose ledger count equals the
pre-cycle global minimum; in particular the cycle is a no-op for that source
whenever every previously-known YouTube track is at the minimum count (for
example when all counts are equal). -/
theorem silent_failure_semantics (spFetched : Option (List Track)) (spCreds : Bool)
    (s : PlayerState) :
    ((loadPlaylistsSilent none spFetched true spCreds s).youtubeTracks
        = s.youtubeTracks.filter
            fun t => s.playCounts (trackKey t) = preCycleMinCount s) ∧
    ((∀ t ∈ s.youtubeTracks, s.playCounts (trackKey t) = preCycleMinCount s) →
      (loadPlaylistsSilent none spFetched true spCreds s).youtubeTracks
        = s.youtubeTracks) := by
  have h1 : (loadPlaylistsSilent none spFetched true spCreds s).youtubeTracks
      = s.youtubeTracks.filter
          fun t => s.playCounts (trackKey t) = preCycleMinCount s := by
    unfold loadPlaylistsSilent
    rw [reconcileQueue_youtubeTracks]
    simp [fetchYoutubeSilent]
  refine ⟨h1, fun h => ?_⟩
  rw [h1]
  apply List.filter_eq_self.2
  intro a ha
  simp [h a ha]

/-- C4 witness: with all counts equal the failed silent fetch cycle publishes the
pre-cycle YouTube list unchanged. -/
theorem silent_failure_semantics_witness :
    (loadPlaylistsSilent none none true false fairInit).youtubeTracks
      = fairInit.youtubeTracks :=
  (silent_failure_semantics none false fairInit).2 (fun t _ => rfl)

theorem playTrack_spotify_new_duration (s : PlayerState) (now d : ℚ) (t : Track)
    (hplat : t.platform = "spotify") (hurl : t.url ≠ "") (hdur : t.duration = some d)
    (hd : 0 < d) :
    (playTrack false now t s).autoplayDuration = some (spotifyTimerDurNew d) := by
  have hplat2 : ¬ (t.platform = "youtube") := by
    rw [hplat]
    decide
  have htr : pyTruthyQ t.duration = true := by
    rw [hdur]
    simp [pyTruthyQ, hd.ne']
  have hgetD : t.duration.getD 0 = d := by rw [hdur]; rfl
  show (playTrackSurface false now t s).autoplayDuration = _
  unfold playTrackSurface
  rw [if_neg hplat2, if_pos hplat]
  simp only [Bool.false_eq_true, if_false]
  rw [if_pos hurl, htr]
  simp only [if_true]
  rw [hgetD]
  unfold startAutoplayTimer
  dsimp only
  rw [if_neg (not_le.2 (spotifyTimerDurNew_pos hd))]

theorem playTrack_spotify_reused_duration (s : PlayerState) (now d : ℚ) (t : Track)
    (hplat : t.platform = "spotify") (hdur : t.duration = some d) (hd : 0 < d) :
    (playTrack true now t s).autoplayDuration = some (spotifyTimerDurReused d) := by
  have hplat2 : ¬ (t.platform = "youtube") := by
    rw [hplat]
    decide
  have htr : pyTruthyQ t.duration = true := by
    rw [hdur]
    simp [pyTruthyQ, hd.ne']
  have hgetD : t.duration.getD 0 = d := by rw [hdur]; rfl
  show (playTrackSurface true now t s).autoplayDuration = _
  unfold playTrackSurface
  rw [if_neg hplat2, if_pos hplat]
  simp only [if_true]
  rw [htr]
  simp only [if_true]
  rw [hgetD]
  unfold startAutoplayTimer
  dsimp only
  rw [if_neg (not_le.2 (spotifyTimerDurReused_pos hd))]

/-- C7 counterexample: playing the 10-second Spotify track `spTrack` on the
fresh-tab path arms the autoplay timer with `10 - 4 = 6` seconds, which is below
`0.9 * 10 = 9`: the claimed "never less than 90% of the duration" bound is false
as stated. -/
theorem spotify_adjust_counterexample :
    spTrack.platform = "spotify" ∧ spTrack.duration = some 10 ∧
    (playTrack false 0 spTrack idleState).autoplayDuration = some 6 ∧
    ¬ ((9/10 : ℚ) * 10 ≤ 6) := by
  refine ⟨rfl, rfl, ?_, by norm_num⟩
  rw [playTrack_spotify_new_duration idleState 0 10 spTrack rfl (by decide) rfl
    (by norm_num)]
  show some (spotifyTimerDurNew 10) = some 6
  norm_num [spotifyTimerDurNew]

/-- C7 amended: for a Spotify track with known duration `d > 0` (and a nonempty
URL), the fresh-tab path of `play_track` arms `spotifyTimerDurNew d` and the
reused-tab path arms `spotifyTimerDurReused d`. The armed duration is always
positive and equals `d - 4` whenever `5 ≤ d`, so the 90% bound fails for long
tracks; the `max(0.5, 0.9 * d)` clamp only applies when the offset result drops
below 1 second — hence for `d < 5` the armed duration is at least `0.9 * d`,
with the absolute floor of `0.5` for `d < 1`. -/
theorem spotify_adjust_semantics (s : PlayerState) (now d : ℚ) (t : Track)
    (hplat : t.platform = "spotify") (hurl : t.url ≠ "") (hdur : t.duration = some d)
    (hd : 0 < d) :
    (playTrack false now t s).autoplayDuration = some (spotifyTimerDurNew d) ∧
    (playTrack true now t s).autoplayDuration = some (spotifyTimerDurReused d) ∧
    0 < spotifyTimerDurNew d ∧
    (5 ≤ d → spotifyTimerDurNew d = d - 4) ∧
    (d < 5 → (9/10) * d ≤ spotifyTimerDurNew d) ∧
    (d < 1 → (1/2 : ℚ) ≤ spotifyTimerDurNew d) := by
  refine ⟨playTrack_spotify_new_duration s now d t hplat hurl hdur hd,
    playTrack_spotify_reused_duration s now d t hplat hdur hd,
    spotifyTimerDurNew_pos hd, ?_, ?_, ?_⟩
  · intro h5
    unfold spotifyTimerDurNew
    dsimp only
    rw [if_pos (by linarith : d > 4), if_neg (by linarith : ¬ (d - 4 < 1))]
  · intro h5
    unfold spotifyTimerDurNew
    dsimp only
    by_cases h4 : d > 4
    · rw [if_pos h4, if_pos (by linarith : d - 4 < 1)]
      calc (9/10 : ℚ) * d = d * (9/10) := by ring
        _ ≤ max (1/2) (d * (9/10)) := le_max_right _ _
    · rw [if_neg h4]
      by_cases hlt1 : d < 1
      · rw [if_pos hlt1]
        calc (9/10 : ℚ) * d = d * (9/10) := by ring
          _ ≤ max (1/2) (d * (9/10)) := le_max_right _ _
      · rw [if_neg hlt1]
        linarith
  · intro h1
    unfold spotifyTimerDurNew
    dsimp only
    rw [if_neg (by linarith : ¬ (d > 4)), if_pos (by linarith : d < 1)]
    exact le_max_left _ _

/-- C7 witness: the 10-second Spotify track arms 6 seconds on the fresh-tab path
from an armed state as well. -/
theorem spotify_adjust_semantics_witness :
    (playTrack false 0 spTrack armedState).autoplayDuration = some 6 := by
  have h := spotify_adjust_semantics armedState 0 10 spTrack rfl (by decide) rfl
    (by norm_num)
  rw [h.1]
  show some (spotifyTimerDurNew 10) = some 6
  norm_num [spotifyTimerDurNew]

theorem reorderQueue_valid (q : List Track) (i tgt : ℕ) (h : i < q.length) :
    reorderQueue q (i : ℤ) (some (tgt : ℤ))
      = List.insertIdx (min tgt (q.eraseIdx i).length) (q.getD i default)
          (q.eraseIdx i) ∧
    (reorderQueue q (i : ℤ) (some (tgt : ℤ))).Perm q := by
  have hcond : 0 ≤ (i : ℤ) ∧ (i : ℤ) < (q.length : ℤ) :=
    ⟨Int.ofNat_nonneg i, by exact_mod_cast h⟩
  have heq : reorderQueue q (i : ℤ) (some (tgt : ℤ))
      = List.insertIdx (min tgt (q.eraseIdx i).length) (q.getD i default)
          (q.eraseIdx i) := by
    unfold reorderQueue
    rw [if_pos hcond]
    dsimp only
    have hN : (i : ℤ).toNat = i := Int.toNat_natCast i
    rw [hN]
    congr 1
    have ht1 : (if (i : ℤ) < (tgt : ℤ) then max 0 (tgt : ℤ) else (tgt : ℤ))
        = (tgt : ℤ) := by
      split_ifs <;> omega
    rw [ht1]
    omega
  refine ⟨heq, ?_⟩
  rw [heq]
  have hlen : min tgt (q.eraseIdx i).length ≤ (q.eraseIdx i).length := min_le_right _ _
  refine (List.perm_insertIdx (q.getD i default) (q.eraseIdx i) hlen).trans ?_
  rw [List.getD_eq_getElem q default h, List.eraseIdx_eq_take_drop_succ]
  refine List.Perm.trans List.perm_middle.symm ?_
  rw [List.getElem_cons_drop, List.take_append_drop]

/-- C8: the drag-release reorder uses remove-then-insert semantics: for a valid
source index the element is removed first, the target index is interpreted
against — and clamped into — the post-removal queue (so an out-of-range target
makes the operation append rather than fail, and the queue is preserved as a
multiset); in particular on `[A, B, C]`, `reorder(2, 0)` yields `[C, A, B]`. -/
theorem reorder_semantics :
    (∀ (q : List Track) (i tgt : ℕ), i < q.length →
        reorderQueue q (i : ℤ) (some (tgt : ℤ))
          = List.insertIdx (min tgt (q.eraseIdx i).length) (q.getD i default)
              (q.eraseIdx i) ∧
        (reorderQueue q (i : ℤ) (some (tgt : ℤ))).Perm q) ∧
    reorderQueue [mkTrack "A" "a", mkTrack "B" "b", mkTrack "C" "c"] 2 (some 0)
      = [mkTrack "C" "c", mkTrack "A" "a", mkTrack "B" "b"] := by
  refine ⟨fun q i tgt h => reorderQueue_valid q i tgt h, ?_⟩
  decide

/-- C8 witness: an out-of-range target (7 on a 3-element queue) is clamped — the
moved element is appended at the end and nothing is lost. -/
theorem reorder_semantics_witness :
    reorderQueue [mkTrack "A" "a", mkTrack "B" "b", mkTrack "C" "c"] 0 (some 7)
      = [mkTrack "B" "b", mkTrack "C" "c", mkTrack "A" "a"] := by
  have h := (reorder_semantics.1 [mkTrack "A" "a", mkTrack "B" "b", mkTrack "C" "c"]
    0 7 (by decide)).1
  have h2 : reorderQueue [mkTrack "A" "a", mkTrack "B" "b", mkTrack "C" "c"] 0 (some 7)
      = reorderQueue [mkTrack "A" "a", mkTrack "B" "b", mkTrack "C" "c"]
          ((0 : ℕ) : ℤ) (some ((7 : ℕ) : ℤ)) := by norm_num
  rw [h2, h]
  decide

/-- C1 counterexample: the fairness bound fails when two catalog entries share an
identity key. `dupInit` has catalog `[trackA1, trackA2, trackB]` with
`trackA1.url = trackA2.url = "u1"`, an empty queue and all counts 0 — the
claim's initial conditions — yet after the two exhibited `advance()` steps the
count of `trackA1` is 2 while `trackB` is still at 0, a spread of 2. -/
theorem fairness_counterexample :
    AdvanceStep dupInit dupS1 ∧ AdvanceStep dupS1 dupS2 ∧
    dupInit.allTracks ≠ [] ∧ dupInit.queue = [] ∧
    (∀ t ∈ dupInit.allTracks, dupInit.playCounts (trackKey t) = 0) ∧
    trackA1 ∈ dupInit.allTracks ∧ trackB ∈ dupInit.allTracks ∧
    dupS2.playCounts (trackKey trackA1) = 2 ∧
    dupS2.playCounts (trackKey trackB) = 0 := by
  refine ⟨⟨id, false, 0, fun l => List.Perm.refl l, rfl⟩,
    ⟨id, false, 0, fun l => List.Perm.refl l, rfl⟩,
    by decide, rfl, fun t _ => rfl, by decide, by decide, ?_, ?_⟩ <;> decide

/-- C1 amended: fairness invariant. Starting from a fixed non-empty catalog whose
tracks have pairwise-distinct identity keys, an empty queue and all play counts
equal, after every sequence of `advance()` calls the play counts of any two
catalog tracks differ by at most 1 — so no track reaches count `n + 1` before
every catalog track has reached `n`. -/
theorem fairness_invariant (C : List Track) (c0 : Nat) (s0 s : PlayerState)
    (hall : s0.allTracks = C) (hne : C ≠ []) (hnd : (C.map trackKey).Nodup)
    (hq : s0.queue = []) (hc : ∀ t ∈ C, s0.playCounts (trackKey t) = c0)
    (hreach : AdvanceReach s0 s) :
    ∀ t ∈ C, ∀ u ∈ C,
      s.playCounts (trackKey t) ≤ s.playCounts (trackKey u) + 1 := by
  have hinv : FairInv C s :=
    advanceReach_inv C hne hnd hreach
      ⟨hall, c0, fun t ht => Or.inl (hc t ht), Or.inr ⟨hq, hc⟩⟩
  obtain ⟨_, c, hcnt, _⟩ := hinv
  intro t ht u hu
  rcases hcnt t ht with h1 | h1 <;> rcases hcnt u hu with h2 | h2 <;> omega

/-- C1 witness: one concrete `advance()` from a two-track distinct-key catalog
keeps the count spread within 1. -/
theorem fairness_invariant_witness :
    (playNextFromQueue id false 0 fairInit).2.playCounts (trackKey wTrackA)
      ≤ (playNextFromQueue id false 0 fairInit).2.playCounts (trackKey wTrackB) + 1 :=
  fairness_invariant [wTrackA, wTrackB] 0 fairInit _ rfl (by decide) (by decide) rfl
    (fun t _ => rfl)
    (AdvanceReach.step (AdvanceReach.refl fairInit)
      ⟨id, false, 0, fun l => List.Perm.refl l, rfl⟩)
    wTrackA (by decide) wTrackB (by decide)
